import Mathlib

/-!
# Verification of the indexed-zstd compression pipeline

A shallow embedding of the `parallel_decompression` crate
(`src/compression.rs`, `src/decompression.rs`, `src/lib.rs`) together with
proofs of the specification's testable properties.  Byte streams are
`List Nat` (one `Nat` per byte, newline is `10`, tab is `9`), machine
integers (`u64`, `usize`) are `Nat`, and fallible operations return
`Except String`.  The zstd single-frame primitive is an external library
capability and is modelled as an abstract `Codec`; the parallel readers
are modelled by their sequential semantics (frame order is the index
order), which determines the observable mapping content that the claims
talk about.
-/

set_option maxHeartbeats 1000000

namespace Pdz

/-! ## Line-buffered reading (std `BufRead::read_line`, modelled from the spec) -/

/-- Modelled from the spec: fold step of `byteLines`, splitting a byte
stream after every newline byte (`10`). -/
def byteLinesStep (b : Nat) (acc : List (List Nat)) : List (List Nat) :=
  if b = 10 then [10] :: acc
  else
    match acc with
    | [] => [[b]]
    | l :: ls => (b :: l) :: ls

/-- Modelled from the spec: the sequence of whole lines a buffered reader
yields for the byte stream `s`.  Every line keeps its trailing newline
byte; the final line may lack one; no empty lines are produced.  This is
the behaviour of repeated `BufRead::read_line` calls (the external
capability the Chunker builds on). -/
def byteLines (s : List Nat) : List (List Nat) :=
  s.foldr byteLinesStep []

theorem byteLines_cons (b : Nat) (s : List Nat) :
    byteLines (b :: s) = byteLinesStep b (byteLines s) := rfl

theorem byteLines_flatten (s : List Nat) : (byteLines s).flatten = s := by
  induction s with
  | nil => rfl
  | cons b s ih =>
    rw [byteLines_cons]; unfold byteLinesStep
    split
    · next hb => subst hb; simp [ih]
    · next hb =>
      cases h : byteLines s with
      | nil => rw [h] at ih; simp at ih; simp [ih]
      | cons l ls => rw [h] at ih; simp at ih ⊢; simpa using ih

theorem byteLines_ne_nil (s : List Nat) : ∀ l ∈ byteLines s, l ≠ [] := by
  induction s with
  | nil => intro l hl; simp [byteLines] at hl
  | cons b s ih =>
    intro l hl
    rw [byteLines_cons] at hl; unfold byteLinesStep at hl
    split at hl
    · rcases List.mem_cons.mp hl with h | h
      · subst h; simp
      · exact ih l h
    · cases h : byteLines s with
      | nil => rw [h] at hl; simp at hl; subst hl; simp
      | cons l0 ls =>
        rw [h] at hl
        rcases List.mem_cons.mp hl with h2 | h2
        · subst h2; simp
        · exact ih l (h ▸ List.mem_cons_of_mem l0 h2)

/-- Every line except possibly the last ends in a newline byte. -/
def LinesEndNL : List (List Nat) → Prop
  | [] => True
  | [_] => True
  | l :: l2 :: ls => l.getLast? = some 10 ∧ LinesEndNL (l2 :: ls)

theorem linesEndNL_tail {l : List Nat} {ls : List (List Nat)}
    (h : LinesEndNL (l :: ls)) : LinesEndNL ls := by
  cases ls with
  | nil => trivial
  | cons l2 ls2 => exact h.2

theorem byteLines_endNL (s : List Nat) : LinesEndNL (byteLines s) := by
  induction s with
  | nil => trivial
  | cons b s ih =>
    rw [byteLines_cons]; unfold byteLinesStep
    split
    · cases h : byteLines s with
      | nil => trivial
      | cons l ls => exact ⟨rfl, h ▸ ih⟩
    · cases h : byteLines s with
      | nil => trivial
      | cons l ls =>
        rw [h] at ih
        cases ls with
        | nil => trivial
        | cons l2 ls2 =>
          refine ⟨?_, ih.2⟩
          have hne : l ≠ [] := byteLines_ne_nil s l (h ▸ List.mem_cons_self l _)
          cases l with
          | nil => exact absurd rfl hne
          | cons x xs => rw [List.getLast?_cons_cons]; exact ih.1

/-! ## The line-aligned chunker (`read_chunk`, compression.rs lines 8-35) -/

/-- One buffered-reader interaction: the bytes of one whole line
(`Except.ok`, the empty list meaning end of input) or an I/O failure.
An input stream is modelled as the list of outcomes its successive
`read_line` calls produce; a faithful (error-free) stream for bytes `s`
is `(byteLines s).map .ok`. -/
abbrev ReadOutcome := Except String (List Nat)

/-- Loop of `read_chunk` (compression.rs lines 16-34): repeatedly
`read_line`, appending each line to `buffer` and adding its byte count to
`total`; return `none` on an EOF read with nothing accumulated, otherwise
the running total once it reaches `block_size` or the stream ends.  A
`read_line` failure propagates (the `?` operator).  Returns the result,
the updated buffer and the rest of the stream. -/
def read_chunk_go : List ReadOutcome → List Nat → Nat → Nat →
    Except String (Option Nat) × List Nat × List ReadOutcome
  | [], buffer, _, total =>
      (.ok (if total = 0 then none else some total), buffer, [])
  | .error e :: rest, buffer, _, _ => (.error e, buffer, rest)
  | .ok line :: rest, buffer, bs, total =>
      if line.length = 0 then
        (.ok (if total = 0 then none else some total), buffer, rest)
      else if bs ≤ total + line.length then
        (.ok (some (total + line.length)), buffer ++ line, rest)
      else
        read_chunk_go rest (buffer ++ line) bs (total + line.length)

/-- `read_chunk` (compression.rs lines 8-35): the loop entered with a zero
running total.  There is no validation of `block_size`. -/
def read_chunk (reader : List ReadOutcome) (buffer : List Nat) (block_size : Nat) :
    Except String (Option Nat) × List Nat × List ReadOutcome :=
  read_chunk_go reader buffer block_size 0

/-- The lines one `read_chunk` call consumes from a line stream, and the
lines it leaves: take lines while the running total stays below `bs`
(always taking at least one).  Derived characterisation used by the
chunker lemmas. -/
def takeChunk (bs : Nat) : Nat → List (List Nat) → List Nat × List (List Nat)
  | _, [] => ([], [])
  | total, l :: rest =>
      if bs ≤ total + l.length then (l, rest)
      else
        let p := takeChunk bs (total + l.length) rest
        (l ++ p.1, p.2)

theorem takeChunk_nil (bs total : Nat) : takeChunk bs total [] = ([], []) := rfl

theorem takeChunk_cons (bs total : Nat) (l : List Nat) (rest : List (List Nat)) :
    takeChunk bs total (l :: rest) =
      if bs ≤ total + l.length then (l, rest)
      else
        let p := takeChunk bs (total + l.length) rest
        (l ++ p.1, p.2) := rfl

/-- On an error-free stream of nonempty lines, `read_chunk_go` returns the
bytes of `takeChunk` appended to the buffer, and leaves exactly the lines
`takeChunk` leaves. -/
theorem read_chunk_go_ok (ls : List (List Nat)) :
    ∀ buf bs total, (∀ l ∈ ls, l ≠ []) → ls ≠ [] →
    read_chunk_go (ls.map .ok) buf bs total =
      (.ok (some (total + (takeChunk bs total ls).1.length)),
       buf ++ (takeChunk bs total ls).1,
       ((takeChunk bs total ls).2).map .ok) := by
  induction ls with
  | nil => intro _ _ _ _ hne; exact absurd rfl hne
  | cons l rest ih =>
    intro buf bs total hl _
    have hlne : l ≠ [] := hl l (List.mem_cons_self l rest)
    have hlen : l.length ≠ 0 := fun h => hlne (List.length_eq_zero.mp h)
    rw [List.map_cons, read_chunk_go, if_neg hlen]
    by_cases hbs : bs ≤ total + l.length
    · rw [if_pos hbs, takeChunk_cons, if_pos hbs]
    · rw [if_neg hbs, takeChunk_cons, if_neg hbs]
      cases rest with
      | nil =>
        rw [show (List.map Except.ok ([] : List (List Nat))) = [] from rfl, read_chunk_go]
        have hpos : total + l.length ≠ 0 := by omega
        simp [takeChunk_nil, hpos]
      | cons r rs =>
        rw [ih (buf ++ l) bs (total + l.length) (fun x hx => hl x (List.mem_cons_of_mem l hx))
          (by simp)]
        simp [Nat.add_assoc]

/-- `takeChunk` consumes a prefix of the line list and leaves the
corresponding suffix; the prefix is nonempty when the list is. -/
theorem takeChunk_split (ls : List (List Nat)) :
    ∀ bs total, ∃ k, k ≤ ls.length ∧ (ls ≠ [] → 1 ≤ k) ∧
      takeChunk bs total ls = ((ls.take k).flatten, ls.drop k) ∧
      (bs ≤ total + ((ls.take k).flatten).length ∨ k = ls.length) := by
  induction ls with
  | nil => intro bs total; exact ⟨0, by simp, by simp, by simp [takeChunk_nil], Or.inr rfl⟩
  | cons l rest ih =>
    intro bs total
    rw [takeChunk_cons]
    split
    · next hbs =>
      refine ⟨1, by simp, fun _ => le_refl 1, ?_, Or.inl (by simpa using hbs)⟩
      simp
    · next hbs =>
      obtain ⟨k, hk, _, heq, hter⟩ := ih bs (total + l.length)
      refine ⟨k + 1, by simp [List.length_cons]; omega, fun _ => by omega, ?_, ?_⟩
      · simp [heq, List.take_succ_cons, List.drop_succ_cons]
      · rcases hter with h | h
        · left
          rw [List.take_succ_cons, List.flatten_cons, List.length_append]
          omega
        · right; simp [h]

/-! ## Frame encoder and indexed writer (compression.rs lines 37-102) -/

/-- The zstd single-frame primitive (an external library capability,
modelled from the spec): `comp` maps a compression level and content to
the bytes of one self-contained frame (or an encode failure); `decomp`
maps the exact bytes of one frame back to its content (or a
decode/checksum failure).  Round-trip laws are taken as hypotheses where
a claim needs them. -/
structure Codec where
  comp : Int → List Nat → Except String (List Nat)
  decomp : List Nat → Except String (List Nat)

/-- A frame descriptor (lib.rs lines 47-52). -/
structure FrameMeta where
  position : Nat
  length : Nat
  order : Nat
deriving DecidableEq, Repr

/-- `FrameMeta::parse_length` (lib.rs lines 63-72): convert the `u64`
length to `usize`.  `usizeMax` is the platform's `usize::MAX`; the
conversion fails for lengths above it, with a message naming the frame's
position. -/
def FrameMeta.parse_length (f : FrameMeta) (usizeMax : Nat) : Except String Nat :=
  if f.length ≤ usizeMax then .ok f.length
  else .error ("The frame at position " ++ Nat.repr f.position ++ " could not be parsed correctly!")

/-- `encode_zstd_block` (compression.rs lines 37-68): note the output
stream's position before the write, append one compressed frame, note
the position again and return both offsets.  The output file is a byte
list whose stream position is its length (the writer only appends). -/
def encode_zstd_block (c : Codec) (file : List Nat) (content : List Nat) (lvl : Int) :
    Except String (List Nat × Nat × Nat) :=
  match c.comp lvl content with
  | .error e => .error e
  | .ok out => .ok (file ++ out, file.length, (file ++ out).length)

/-- Observable state after `write_indexed_zstd`: the compressed output
file, and the descriptor list serialized to the index stream (`none`
when nothing was written to it). -/
structure WriteState where
  zstdFile : List Nat
  idxWritten : Option (List FrameMeta)
deriving DecidableEq, Repr

/-- The `while let Ok(Some(_))` loop of `write_indexed_zstd`
(compression.rs lines 84-95) followed by the index serialization (lines
97-99).  Each iteration reads one chunk into an emptied buffer
(`std::mem::take`), encodes it and appends a descriptor; an encode
failure aborts through `?` before anything reaches the index stream;
any other `read_chunk` outcome (`Ok(None)` or `Err(_)`) leaves the loop,
after which the whole descriptor list is serialized and `Ok(())`
returned.  `fuel` bounds the iteration count; the entry point supplies
more fuel than the reader can sustain iterations, so the `0` case is
never reached. -/
def writeLoop (c : Codec) (lvl : Int) (bs : Nat) :
    Nat → List ReadOutcome → List Nat → List FrameMeta → Nat →
    WriteState × Except String Unit
  | 0, _, file, recs, _ => (⟨file, some recs⟩, .ok ())
  | fuel + 1, reader, file, recs, seq =>
    match read_chunk reader [] bs with
    | (.ok (some _), content, reader2) =>
      (match encode_zstd_block c file content lvl with
      | .error e => (⟨file, none⟩, .error e)
      | .ok (file2, start, stop) =>
        writeLoop c lvl bs fuel reader2 file2 (recs ++ [⟨start, stop - start, seq⟩]) (seq + 1))
    | _ => (⟨file, some recs⟩, .ok ())

/-- `write_indexed_zstd` (compression.rs lines 72-102), entered with the
output file in state `file0` (the caller opens it with `truncate`, so
`file0 = []` in every real pass). -/
def write_indexed_zstd (c : Codec) (reader : List ReadOutcome) (file0 : List Nat)
    (block_size : Nat) (lvl : Int) : WriteState × Except String Unit :=
  writeLoop c lvl block_size (reader.length + 1) reader file0 [] 0

/-- Descriptors for consecutive frames of the given compressed sizes,
starting at file offset `pos` with sequence number `seq`. -/
def mkFrames : Nat → Nat → List (List Nat) → List FrameMeta
  | _, _, [] => []
  | pos, seq, z :: zs => ⟨pos, z.length, seq⟩ :: mkFrames (pos + z.length) (seq + 1) zs

theorem takeChunk_snd_le (bs : Nat) :
    ∀ (rest : List (List Nat)) (total : Nat) (l : List Nat),
      ((takeChunk bs total (l :: rest)).2).length ≤ rest.length := by
  intro rest
  induction rest with
  | nil =>
    intro total l
    rw [takeChunk_cons]
    split
    · simp
    · simp [takeChunk_nil]
  | cons r rs ih =>
    intro total l
    rw [takeChunk_cons]
    split
    · simp
    · calc ((takeChunk bs (total + l.length) (r :: rs)).2).length
          ≤ rs.length := ih (total + l.length) r
        _ ≤ (r :: rs).length := by simp

/-- The chunks a compression pass cuts the line list into. -/
def chunksOf (bs : Nat) : List (List Nat) → List (List Nat)
  | [] => []
  | l :: rest =>
    (takeChunk bs 0 (l :: rest)).1 :: chunksOf bs (takeChunk bs 0 (l :: rest)).2
termination_by ls => ls.length
decreasing_by
  exact Nat.lt_succ_of_le (takeChunk_snd_le _ _ _ _)

theorem chunksOf_nil (bs : Nat) : chunksOf bs [] = [] := by simp [chunksOf]

theorem chunksOf_cons (bs : Nat) (l : List Nat) (rest : List (List Nat)) :
    chunksOf bs (l :: rest) =
      (takeChunk bs 0 (l :: rest)).1 :: chunksOf bs (takeChunk bs 0 (l :: rest)).2 := by
  conv_lhs => rw [chunksOf.eq_def]

/-- The compressed output for a chunk, under a codec known to succeed
(the `.error` arm is junk, only reachable when `comp` fails). -/
def compOk (c : Codec) (lvl : Int) (chunk : List Nat) : List Nat :=
  match c.comp lvl chunk with
  | .ok out => out
  | .error _ => []

theorem mkFrames_length : ∀ (zs : List (List Nat)) (pos seq : Nat),
    (mkFrames pos seq zs).length = zs.length := by
  intro zs
  induction zs with
  | nil => intro pos seq; rfl
  | cons z zs ih => intro pos seq; simp [mkFrames, ih]

theorem mkFrames_get : ∀ (zs : List (List Nat)) (pos seq i : Nat) (h : i < zs.length),
    (mkFrames pos seq zs).get ⟨i, by rw [mkFrames_length]; exact h⟩ =
      ⟨pos + ((zs.take i).flatten).length, (zs.get ⟨i, h⟩).length, seq + i⟩ := by
  intro zs
  induction zs with
  | nil => intro pos seq i h; simp at h
  | cons z zs ih =>
    intro pos seq i h
    cases i with
    | zero => simp [mkFrames]
    | succ j =>
      have hj : j < zs.length := by simpa using h
      have := ih (pos + z.length) (seq + 1) j hj
      simp only [mkFrames, List.get_cons_succ, List.take_succ_cons, List.flatten_cons,
        List.length_append] at this ⊢
      rw [this]
      congr 1
      · omega
      · omega

theorem mkFrames_getLast : ∀ (zs : List (List Nat)) (pos seq : Nat) (f : FrameMeta),
    (mkFrames pos seq zs).getLast? = some f →
      f.position + f.length = pos + zs.flatten.length := by
  intro zs
  induction zs with
  | nil => intro pos seq f hf; simp [mkFrames] at hf
  | cons z zs ih =>
    intro pos seq f hf
    cases zs with
    | nil =>
      simp [mkFrames] at hf
      subst hf
      simp
    | cons z2 zs2 =>
      rw [show mkFrames pos seq (z :: z2 :: zs2) =
        ⟨pos, z.length, seq⟩ :: mkFrames (pos + z.length) (seq + 1) (z2 :: zs2) from rfl,
        show mkFrames (pos + z.length) (seq + 1) (z2 :: zs2) =
        ⟨pos + z.length, z2.length, seq + 1⟩ :: mkFrames (pos + z.length + z2.length)
          (seq + 2) zs2 from rfl, List.getLast?_cons_cons] at hf
      have := ih (pos + z.length) (seq + 1) f (by
        rw [show mkFrames (pos + z.length) (seq + 1) (z2 :: zs2) =
          ⟨pos + z.length, z2.length, seq + 1⟩ :: mkFrames (pos + z.length + z2.length)
            (seq + 2) zs2 from rfl]
        exact hf)
      rw [this]
      simp [Nat.add_assoc]

/-- Full run of the writer loop over an error-free line stream with a
codec that never fails to encode: the output file receives the
compressed chunks back to back and the index receives one descriptor per
chunk, contiguous from the starting offset. -/
theorem writeLoop_ok (c : Codec) (lvl : Int) (bs : Nat)
    (hc : ∀ lv ch, ∃ out, c.comp lv ch = .ok out) :
    ∀ (fuel : Nat) (ls : List (List Nat)) (file : List Nat) (recs : List FrameMeta) (seq : Nat),
      (∀ l ∈ ls, l ≠ []) → ls.length < fuel →
      writeLoop c lvl bs fuel (ls.map .ok) file recs seq =
        (⟨file ++ ((chunksOf bs ls).map (compOk c lvl)).flatten,
          some (recs ++ mkFrames file.length seq ((chunksOf bs ls).map (compOk c lvl)))⟩,
         .ok ()) := by
  intro fuel
  induction fuel with
  | zero => intro ls _ _ _ _ hfuel; omega
  | succ fuel ih =>
    intro ls file recs seq hne hfuel
    cases ls with
    | nil =>
      rw [writeLoop]
      simp [read_chunk, read_chunk_go, chunksOf_nil, mkFrames]
    | cons l rest =>
      have hrc : read_chunk ((l :: rest).map .ok) [] bs =
          (.ok (some (0 + (takeChunk bs 0 (l :: rest)).1.length)),
           [] ++ (takeChunk bs 0 (l :: rest)).1,
           ((takeChunk bs 0 (l :: rest)).2).map .ok) :=
        read_chunk_go_ok (l :: rest) [] bs 0 hne (by simp)
      obtain ⟨out, hout⟩ := hc lvl ((takeChunk bs 0 (l :: rest)).1)
      have henc : encode_zstd_block c file ([] ++ (takeChunk bs 0 (l :: rest)).1) lvl =
          .ok (file ++ out, file.length, (file ++ out).length) := by
        unfold encode_zstd_block
        rw [List.nil_append, hout]
      obtain ⟨k, hk, hk1, heqk, _⟩ := takeChunk_split (l :: rest) bs 0
      have hmem : ∀ x ∈ (takeChunk bs 0 (l :: rest)).2, x ≠ [] := by
        intro x hx
        rw [heqk] at hx
        exact hne x (List.mem_of_mem_drop hx)
      have hlen2 : ((takeChunk bs 0 (l :: rest)).2).length < fuel := by
        have := takeChunk_snd_le bs rest 0 l
        simp only [List.length_cons] at hfuel
        omega
      rw [writeLoop, hrc]
      dsimp only
      rw [henc]
      dsimp only
      rw [ih _ _ _ _ hmem hlen2]
      have hcomp : compOk c lvl ((takeChunk bs 0 (l :: rest)).1) = out := by
        unfold compOk; rw [hout]
      simp only [chunksOf_cons, List.map_cons, hcomp, List.flatten_cons, mkFrames,
        List.length_append, List.append_assoc, List.cons_append, List.nil_append,
        Nat.add_sub_cancel_left]

/-- Full run of the writer loop over an error-free line stream with an
arbitrary codec: either every chunk encodes and the complete contiguous
index is written with `Ok`, or some chunk's encode fails, the error
propagates, and nothing reaches the index stream. -/
theorem writeLoop_cases (c : Codec) (lvl : Int) (bs : Nat) :
    ∀ (fuel : Nat) (ls : List (List Nat)) (file : List Nat) (recs : List FrameMeta) (seq : Nat),
      (∀ l ∈ ls, l ≠ []) → ls.length < fuel →
      (∃ zchunks, List.Forall₂ (fun ch z => c.comp lvl ch = .ok z) (chunksOf bs ls) zchunks ∧
        writeLoop c lvl bs fuel (ls.map .ok) file recs seq =
          (⟨file ++ zchunks.flatten, some (recs ++ mkFrames file.length seq zchunks)⟩,
           .ok ())) ∨
      (∃ e file2 ch, c.comp lvl ch = .error e ∧
        writeLoop c lvl bs fuel (ls.map .ok) file recs seq = (⟨file2, none⟩, .error e)) := by
  intro fuel
  induction fuel with
  | zero => intro ls _ _ _ _ hfuel; omega
  | succ fuel ih =>
    intro ls file recs seq hne hfuel
    cases ls with
    | nil =>
      left
      refine ⟨[], by simp [chunksOf_nil], ?_⟩
      rw [writeLoop]
      simp [read_chunk, read_chunk_go, mkFrames]
    | cons l rest =>
      have hrc : read_chunk ((l :: rest).map .ok) [] bs =
          (.ok (some (0 + (takeChunk bs 0 (l :: rest)).1.length)),
           [] ++ (takeChunk bs 0 (l :: rest)).1,
           ((takeChunk bs 0 (l :: rest)).2).map .ok) :=
        read_chunk_go_ok (l :: rest) [] bs 0 hne (by simp)
      obtain ⟨k, hk, hk1, heqk, _⟩ := takeChunk_split (l :: rest) bs 0
      have hmem : ∀ x ∈ (takeChunk bs 0 (l :: rest)).2, x ≠ [] := by
        intro x hx
        rw [heqk] at hx
        exact hne x (List.mem_of_mem_drop hx)
      have hlen2 : ((takeChunk bs 0 (l :: rest)).2).length < fuel := by
        have := takeChunk_snd_le bs rest 0 l
        simp only [List.length_cons] at hfuel
        omega
      rw [writeLoop, hrc]
      dsimp only
      cases hcomp : c.comp lvl ((takeChunk bs 0 (l :: rest)).1) with
      | error e =>
        right
        have henc : encode_zstd_block c file ([] ++ (takeChunk bs 0 (l :: rest)).1) lvl =
            .error e := by
          unfold encode_zstd_block
          rw [List.nil_append, hcomp]
        rw [henc]
        exact ⟨e, file, _, hcomp, rfl⟩
      | ok out =>
        have henc : encode_zstd_block c file ([] ++ (takeChunk bs 0 (l :: rest)).1) lvl =
            .ok (file ++ out, file.length, (file ++ out).length) := by
          unfold encode_zstd_block
          rw [List.nil_append, hcomp]
        rw [henc]
        dsimp only
        rcases ih ((takeChunk bs 0 (l :: rest)).2) (file ++ out)
            (recs ++ [⟨file.length, (file ++ out).length - file.length, seq⟩]) (seq + 1)
            hmem hlen2 with ⟨zs, hall, heq⟩ | ⟨e, f2, ch, herr, heq⟩
        · left
          refine ⟨out :: zs, ?_, ?_⟩
          · rw [chunksOf_cons]
            exact List.Forall₂.cons hcomp hall
          · rw [heq]
            simp [mkFrames, List.append_assoc, Nat.add_sub_cancel_left, List.length_append,
              List.flatten_cons]
        · right
          exact ⟨e, f2, ch, herr, by rw [heq]⟩

/-! ## UTF-8 and numeric parsing (std capabilities, modelled from the spec) -/

/-- A UTF-8 continuation byte. -/
def isCont (b : Nat) : Bool := 128 ≤ b && b ≤ 191

/-- Modelled from the spec: strict UTF-8 validation and decoding
(`str::from_utf8`), producing the scalar values or failing on any
invalid, truncated, overlong or surrogate sequence. -/
def utf8Decode : List Nat → Option (List Nat)
  | [] => some []
  | b :: bs =>
    if b ≤ 127 then (utf8Decode bs).map (b :: ·)
    else if 194 ≤ b && b ≤ 223 then
      match bs with
      | b1 :: bs2 =>
        if isCont b1 then (utf8Decode bs2).map (((b - 192) * 64 + (b1 - 128)) :: ·)
        else none
      | [] => none
    else if 224 ≤ b && b ≤ 239 then
      match bs with
      | b1 :: b2 :: bs2 =>
        if (if b = 224 then 160 else 128) ≤ b1 && b1 ≤ (if b = 237 then 159 else 191) &&
            isCont b2 then
          (utf8Decode bs2).map (((b - 224) * 4096 + (b1 - 128) * 64 + (b2 - 128)) :: ·)
        else none
      | _ => none
    else if 240 ≤ b && b ≤ 244 then
      match bs with
      | b1 :: b2 :: b3 :: bs2 =>
        if (if b = 240 then 144 else 128) ≤ b1 && b1 ≤ (if b = 244 then 143 else 191) &&
            isCont b2 && isCont b3 then
          (utf8Decode bs2).map
            (((b - 240) * 262144 + (b1 - 128) * 4096 + (b2 - 128) * 64 + (b3 - 128)) :: ·)
        else none
      | _ => none
    else none

/-- Modelled from the spec: permissive UTF-8 decoding
(`String::from_utf8_lossy`): invalid sequences decode to the replacement
character `65533`; never fails.  (The exact grouping of invalid bytes
into replacement characters is irrelevant to every claim.) -/
def utf8Lossy : List Nat → List Nat
  | [] => []
  | b :: bs =>
    if b ≤ 127 then b :: utf8Lossy bs
    else if 194 ≤ b && b ≤ 223 then
      match bs with
      | b1 :: bs2 =>
        if isCont b1 then ((b - 192) * 64 + (b1 - 128)) :: utf8Lossy bs2
        else 65533 :: utf8Lossy (b1 :: bs2)
      | [] => [65533]
    else if 224 ≤ b && b ≤ 239 then
      match bs with
      | b1 :: b2 :: bs2 =>
        if (if b = 224 then 160 else 128) ≤ b1 && b1 ≤ (if b = 237 then 159 else 191) &&
            isCont b2 then
          ((b - 224) * 4096 + (b1 - 128) * 64 + (b2 - 128)) :: utf8Lossy bs2
        else 65533 :: utf8Lossy (b1 :: b2 :: bs2)
      | bs1 => 65533 :: utf8Lossy bs1
    else if 240 ≤ b && b ≤ 244 then
      match bs with
      | b1 :: b2 :: b3 :: bs2 =>
        if (if b = 240 then 144 else 128) ≤ b1 && b1 ≤ (if b = 244 then 143 else 191) &&
            isCont b2 && isCont b3 then
          ((b - 240) * 262144 + (b1 - 128) * 4096 + (b2 - 128) * 64 + (b3 - 128)) ::
            utf8Lossy bs2
        else 65533 :: utf8Lossy (b1 :: b2 :: b3 :: bs2)
      | bs1 => 65533 :: utf8Lossy bs1
    else 65533 :: utf8Lossy bs

/-- Key decoding: permissive UTF-8 into a Lean `String` (all scalar
values produced by `utf8Lossy` are valid). -/
def decodeKey (bytes : List Nat) : String :=
  String.mk ((utf8Lossy bytes).map Char.ofNat)

/-- The Unicode White_Space property (`char::is_whitespace`, the set
`str::trim` strips). -/
def isWS (cp : Nat) : Bool :=
  cp = 9 || cp = 10 || cp = 11 || cp = 12 || cp = 13 || cp = 32 || cp = 133 || cp = 160 ||
  cp = 5760 || (8192 ≤ cp && cp ≤ 8202) || cp = 8232 || cp = 8233 || cp = 8239 ||
  cp = 8287 || cp = 12288

/-- `str::trim`: strip leading and trailing whitespace code points. -/
def trimWS (cps : List Nat) : List Nat :=
  ((cps.dropWhile isWS).reverse.dropWhile isWS).reverse

def digitsVal : Nat → List Nat → Option Nat
  | acc, [] => some acc
  | acc, c :: cs => if 48 ≤ c && c ≤ 57 then digitsVal (acc * 10 + (c - 48)) cs else none

/-- Modelled from the spec: `u64::from_str` — an optional leading plus
sign, then one or more ASCII digits, rejecting anything else and values
at or above `2^64`. -/
def parseU64 (cps : List Nat) : Option Nat :=
  match (match cps with | 43 :: rest => rest | _ => cps) with
  | [] => none
  | body =>
    match digitsVal 0 body with
    | some v => if v < 2 ^ 64 then some v else none
    | none => none

/-! ## Record parsing and the positional frame reader (decompression.rs) -/

/-- `parse_bytes_to_numeric` (decompression.rs lines 21-33): UTF-8
validate the value bytes, trim whitespace, parse as `u64`.  (The quote
characters the source messages put around the zero are elided.) -/
def parse_bytes_to_numeric (bytes : List Nat) : Except String Nat :=
  match utf8Decode bytes with
  | none => .error "Unable to parse record content. Taxid will be reported as 0!"
  | some cps =>
    match parseU64 (trimWS cps) with
    | none => .error "Unable to convert value to numeric. Taxid will be reported as 0!"
    | some t => .ok t

/-- `slice::split` on a separator byte: the segments between separators,
empty segments kept (a trailing separator yields a final empty
segment). -/
def splitOnByte (sep : Nat) (buf : List Nat) : List (List Nat) :=
  buf.foldr
    (fun b acc =>
      if b = sep then [] :: acc
      else
        match acc with
        | [] => [[b]]
        | l :: ls => (b :: l) :: ls)
    [[]]

/-- The per-line body of `parse_lines_to_map` (decompression.rs lines
38-51): skip the line when it has no tab byte; otherwise append the pair
made of the permissively-decoded key and the parsed value, substituting
`0` and emitting a diagnostic naming the key when the value fails to
parse (the `eprintln!` output is modelled as the second component; the
quote characters around the key are elided). -/
def parseLineStep (st : List (String × Nat) × List String) (line : List Nat) :
    List (String × Nat) × List String :=
  match line.findIdx? (fun b => b == 9) with
  | none => st
  | some i =>
    let accession := decodeKey (line.take i)
    match parse_bytes_to_numeric (line.drop (i + 1)) with
    | .ok t => (st.1 ++ [(accession, t)], st.2)
    | .error e =>
      (st.1 ++ [(accession, 0)],
       st.2 ++ ["Error parsing record " ++ accession ++ ". " ++ e])

/-- `parse_lines_to_map` (decompression.rs lines 35-54): split the buffer
on newlines and process each line with `parseLineStep`, returning the
`(key, value)` pairs in line order together with the diagnostics. -/
def parse_lines_to_map (buf : List Nat) : List (String × Nat) × List String :=
  (splitOnByte 10 buf).foldl parseLineStep ([], [])

/-- Positional read (`FileExt::read_exact_at`): exactly `len` bytes at
offset `pos`, failing with the std `UnexpectedEof` message when the file
is too short. -/
def read_exact_at (file : List Nat) (len pos : Nat) : Except String (List Nat) :=
  if pos + len ≤ file.length then .ok ((file.drop pos).take len)
  else .error "failed to fill whole buffer"

/-- The positional-read-and-decode part of `map_zstd_frame`
(decompression.rs lines 56-63): parse the descriptor's length, read
exactly that many bytes at the descriptor's position, decode them as one
self-contained frame. -/
def map_zstd_frame_bytes (c : Codec) (usizeMax : Nat) (zfile : List Nat) (f : FrameMeta) :
    Except String (List Nat) :=
  match f.parse_length usizeMax with
  | .error e => .error e
  | .ok len =>
    match read_exact_at zfile len f.position with
    | .error e => .error e
    | .ok payload => c.decomp payload

/-- `map_zstd_frame` (decompression.rs lines 56-67): decode one frame and
parse its lines; the parse diagnostics ride along with the pairs. -/
def map_zstd_frame (c : Codec) (usizeMax : Nat) (zfile : List Nat) (f : FrameMeta) :
    Except String (List (String × Nat) × List String) :=
  match map_zstd_frame_bytes c usizeMax zfile f with
  | .error e => .error e
  | .ok payload => .ok (parse_lines_to_map payload)

/-! ## The three aggregation strategies (decompression.rs lines 71-168)

The worker pool distributes frames across threads; its observable
result — the claims' subject — is determined by the sequence of
per-frame insertions, modelled here in index order (the sequential
semantics; a worker count of 1 realises it exactly). -/

/-- An association list with at most one entry per key, the observable
content of a hash map (`DashMap`/`AHashMap`); `insertKV` is `insert`:
replace the value when the key is present, append otherwise. -/
abbrev KVMap := List (String × Nat)

def insertKV (m : KVMap) (k : String) (v : Nat) : KVMap :=
  if m.any (fun p => p.1 == k) then
    m.map (fun p => if p.1 == k then (k, v) else p)
  else m ++ [(k, v)]

def insertAll (m : KVMap) (pairs : List (String × Nat)) : KVMap :=
  pairs.foldl (fun acc kv => insertKV acc kv.1 kv.2) m

def lookupKV (m : KVMap) (k : String) : Option Nat :=
  (m.find? (fun p => p.1 == k)).map (fun p => p.2)

/-- One frame's work in `read_indexed_zstd_dashmap` (decompression.rs
lines 86-94): on success insert every pair into the shared map; on
failure print the error (`eprintln!`, modelled as appending the error
string to the log) and continue. -/
def dashStep (c : Codec) (usizeMax : Nat) (zfile : List Nat)
    (st : KVMap × List String) (f : FrameMeta) : KVMap × List String :=
  match map_zstd_frame c usizeMax zfile f with
  | .ok pd => (insertAll st.1 pd.1, st.2 ++ pd.2)
  | .error e => (st.1, st.2 ++ [e])

/-- `read_indexed_zstd_dashmap` (decompression.rs lines 71-99): each
frame's pairs are inserted into one shared map as the frame completes; a
failing frame is logged and skipped.  Returns the map and everything
printed to stderr. -/
def read_indexed_zstd_dashmap (c : Codec) (usizeMax : Nat) (zfile : List Nat)
    (frames : List FrameMeta) : KVMap × List String :=
  frames.foldl (dashStep c usizeMax zfile) ([], [])

/-- `read_indexed_zstd_vector` (decompression.rs lines 101-126):
per-frame results are collected with `filter_map(Result::ok)` — a
failing frame is dropped with no log — then flattened and collected into
one map.  Returns the map and the stderr output (parse diagnostics of
the successful frames only). -/
def read_indexed_zstd_vector (c : Codec) (usizeMax : Nat) (zfile : List Nat)
    (frames : List FrameMeta) : KVMap × List String :=
  (insertAll []
     (((frames.filterMap (fun f => (map_zstd_frame c usizeMax zfile f).toOption)).map
       Prod.fst).flatten),
   ((frames.filterMap (fun f => (map_zstd_frame c usizeMax zfile f).toOption)).map
     Prod.snd).flatten)

/-- The pairwise combine of `read_indexed_zstd_merge` (decompression.rs
lines 155-164): swap so the left map is the larger, then insert every
entry of the smaller into it. -/
def mergeStep (a b : KVMap) : KVMap :=
  if a.length < b.length then insertAll b a else insertAll a b

/-- `read_indexed_zstd_merge` (decompression.rs lines 128-168): failing
frames are dropped silently; each surviving frame's pairs build a local
map; the local maps are combined with the size-biased `mergeStep`,
starting from the empty map. -/
def read_indexed_zstd_merge (c : Codec) (usizeMax : Nat) (zfile : List Nat)
    (frames : List FrameMeta) : KVMap × List String :=
  ((((frames.filterMap (fun f => (map_zstd_frame c usizeMax zfile f).toOption)).map
      Prod.fst).map (fun pairs => insertAll [] pairs)).foldl mergeStep [],
   ((frames.filterMap (fun f => (map_zstd_frame c usizeMax zfile f).toOption)).map
     Prod.snd).flatten)

/-- The pair lists of the frames that decode successfully, in index
order. -/
def okFramePairs (c : Codec) (usizeMax : Nat) (zfile : List Nat)
    (frames : List FrameMeta) : List (List (String × Nat)) :=
  (frames.filterMap (fun f => (map_zstd_frame c usizeMax zfile f).toOption)).map Prod.fst

theorem okFramePairs_cons (c : Codec) (u : Nat) (z : List Nat) (f : FrameMeta)
    (fs : List FrameMeta) :
    okFramePairs c u z (f :: fs) =
      match map_zstd_frame c u z f with
      | .ok pd => pd.1 :: okFramePairs c u z fs
      | .error _ => okFramePairs c u z fs := by
  unfold okFramePairs
  cases h : map_zstd_frame c u z f <;> simp [List.filterMap_cons, h, Except.toOption]

/-! ## Association-list lemmas for the aggregation strategies -/

theorem insertAll_append (m : KVMap) (p q : List (String × Nat)) :
    insertAll m (p ++ q) = insertAll (insertAll m p) q :=
  List.foldl_append _ _ _ _

theorem mem_keys_insertKV (m : KVMap) (k : String) (v : Nat) (k' : String)
    (h : k' ∈ m.map Prod.fst ∨ k' = k) :
    k' ∈ (insertKV m k v).map Prod.fst := by
  unfold insertKV
  split
  · next hany =>
    rw [List.map_map]
    rcases h with h | h
    · obtain ⟨p, hp, hpk⟩ := List.mem_map.mp h
      refine List.mem_map.mpr ⟨p, hp, ?_⟩
      by_cases hc : (p.1 == k) = true
      · have hpeq : p.1 = k := by simpa using hc
        simp only [Function.comp_apply, if_pos hc]
        exact hpeq ▸ hpk
      · simp only [Function.comp_apply, if_neg hc]
        exact hpk
    · obtain ⟨p, hp, hpk⟩ := List.any_eq_true.mp hany
      refine List.mem_map.mpr ⟨p, hp, ?_⟩
      simp only [Function.comp_apply, if_pos hpk]
      exact h.symm
  · rcases h with h | h
    · rw [List.map_append]
      exact List.mem_append_left _ h
    · simp [h]

theorem mem_keys_insertAll (pairs : List (String × Nat)) :
    ∀ (m : KVMap) (k' : String),
      (k' ∈ m.map Prod.fst ∨ k' ∈ pairs.map Prod.fst) →
      k' ∈ (insertAll m pairs).map Prod.fst := by
  induction pairs with
  | nil =>
    intro m k' h
    rcases h with h | h
    · simpa [insertAll] using h
    · simp at h
  | cons kv rest ih =>
    intro m k' h
    show k' ∈ (insertAll (insertKV m kv.1 kv.2) rest).map Prod.fst
    rcases h with h | h
    · exact ih _ k' (Or.inl (mem_keys_insertKV m kv.1 kv.2 k' (Or.inl h)))
    · rw [List.map_cons] at h
      rcases List.mem_cons.mp h with h2 | h2
      · exact ih _ k' (Or.inl (mem_keys_insertKV m kv.1 kv.2 k' (Or.inr h2)))
      · exact ih _ k' (Or.inr h2)

theorem mem_keys_mergeStep (a b : KVMap) (k' : String)
    (h : k' ∈ a.map Prod.fst ∨ k' ∈ b.map Prod.fst) :
    k' ∈ (mergeStep a b).map Prod.fst := by
  unfold mergeStep
  split
  · exact mem_keys_insertAll a b k' h.symm
  · exact mem_keys_insertAll b a k' h

theorem mem_keys_foldl_mergeStep (locals : List KVMap) :
    ∀ (acc : KVMap) (k' : String),
      (k' ∈ acc.map Prod.fst ∨ ∃ L ∈ locals, k' ∈ L.map Prod.fst) →
      k' ∈ (locals.foldl mergeStep acc).map Prod.fst := by
  induction locals with
  | nil =>
    intro acc k' h
    rcases h with h | ⟨L, hL, _⟩
    · exact h
    · simp at hL
  | cons L1 ls ih =>
    intro acc k' h
    show k' ∈ ((ls.foldl mergeStep (mergeStep acc L1)).map Prod.fst)
    rcases h with h | ⟨L, hL, hk⟩
    · exact ih _ k' (Or.inl (mem_keys_mergeStep acc L1 k' (Or.inl h)))
    · rcases List.mem_cons.mp hL with h2 | h2
      · rw [h2] at hk
        exact ih _ k' (Or.inl (mem_keys_mergeStep acc L1 k' (Or.inr hk)))
      · exact ih _ k' (Or.inr ⟨L, h2, hk⟩)

/-- Inserting pairs whose keys are fresh and distinct appends them. -/
theorem insertAll_fresh (pairs : List (String × Nat)) :
    ∀ (m : KVMap), ((m.map Prod.fst ++ pairs.map Prod.fst).Nodup) →
      insertAll m pairs = m ++ pairs := by
  induction pairs with
  | nil => intro m _; simp [insertAll]
  | cons kv rest ih =>
    intro m hnd
    have hknotin : kv.1 ∉ m.map Prod.fst := by
      intro hmem
      have := List.disjoint_of_nodup_append hnd
      exact this hmem (by simp)
    have hany : ¬ m.any (fun p => p.1 == kv.1) = true := by
      intro hany
      obtain ⟨p, hp, hpk⟩ := List.any_eq_true.mp hany
      exact hknotin (List.mem_map.mpr ⟨p, hp, by simpa using hpk⟩)
    show insertAll (insertKV m kv.1 kv.2) rest = m ++ kv :: rest
    rw [insertKV, if_neg hany, ih (m ++ [(kv.1, kv.2)]) (by
      simp only [List.map_append, List.map_cons] at hnd ⊢
      simpa [List.append_assoc] using hnd)]
    simp

theorem mergeStep_perm (a b : KVMap)
    (hnd : ((a ++ b).map Prod.fst).Nodup) : (mergeStep a b).Perm (a ++ b) := by
  unfold mergeStep
  have hba : ((b ++ a).map Prod.fst).Nodup := by
    refine (List.Perm.nodup_iff ?_).mpr hnd
    exact List.Perm.map _ (List.perm_append_comm)
  split
  · rw [insertAll_fresh a b (by simpa using hba)]
    exact List.perm_append_comm
  · rw [insertAll_fresh b a (by simpa using hnd)]

theorem foldl_mergeStep_perm (locals : List KVMap) :
    ∀ (acc : KVMap), (((acc ++ locals.flatten).map Prod.fst).Nodup) →
      (locals.foldl mergeStep acc).Perm (acc ++ locals.flatten) := by
  induction locals with
  | nil => intro acc _; simp
  | cons L1 ls ih =>
    intro acc hnd
    show (ls.foldl mergeStep (mergeStep acc L1)).Perm _
    have hsub : (acc ++ L1).Sublist (acc ++ (L1 ++ ls.flatten)) :=
      (List.append_sublist_append_left acc).mpr (List.sublist_append_left L1 ls.flatten)
    have hndL : ((acc ++ L1).map Prod.fst).Nodup :=
      List.Nodup.sublist (hsub.map Prod.fst) (by simpa using hnd)
    have hstep := mergeStep_perm acc L1 hndL
    have hperm2 : ((mergeStep acc L1) ++ ls.flatten).Perm ((acc ++ L1) ++ ls.flatten) :=
      hstep.append_right _
    have hnd2 : (((mergeStep acc L1) ++ ls.flatten).map Prod.fst).Nodup := by
      refine (List.Perm.nodup_iff (List.Perm.map _ hperm2)).mpr ?_
      simpa [List.append_assoc] using hnd
    have hih := ih (mergeStep acc L1) hnd2
    refine hih.trans (hperm2.trans ?_)
    simp [List.append_assoc]

theorem lookupKV_eq_some_of_mem (m : KVMap) (k : String) (v : Nat)
    (hnd : (m.map Prod.fst).Nodup) (hmem : (k, v) ∈ m) : lookupKV m k = some v := by
  induction m with
  | nil => simp at hmem
  | cons p rest ih =>
    rcases List.mem_cons.mp hmem with h | h
    · have hp : p = (k, v) := h.symm
      subst hp
      unfold lookupKV
      simp [List.find?]
    · have hfalse : (p.1 == k) = false := by
        refine Bool.eq_false_iff.mpr (fun hc => ?_)
        have hk : p.1 = k := by simpa using hc
        have hkm : k ∈ rest.map Prod.fst := List.mem_map.mpr ⟨(k, v), h, rfl⟩
        rw [List.map_cons, List.nodup_cons, hk] at hnd
        exact hnd.1 hkm
      have ihv := ih (by rw [List.map_cons, List.nodup_cons] at hnd; exact hnd.2) h
      unfold lookupKV at ihv ⊢
      simp only [List.find?, hfalse]
      exact ihv

theorem mem_of_lookupKV_eq_some (m : KVMap) (k : String) (v : Nat)
    (h : lookupKV m k = some v) : (k, v) ∈ m := by
  unfold lookupKV at h
  cases hf : m.find? (fun p => p.1 == k) with
  | none => rw [hf] at h; simp at h
  | some p =>
    rw [hf] at h
    have hp := List.find?_some hf
    have hpm := List.mem_of_find?_eq_some hf
    have hk : p.1 = k := by simpa using hp
    have hv : p.2 = v := by simpa using h
    have : p = (k, v) := by rw [← hk, ← hv]
    exact this ▸ hpm

theorem lookupKV_eq_none_iff (m : KVMap) (k : String) :
    lookupKV m k = none ↔ k ∉ m.map Prod.fst := by
  unfold lookupKV
  constructor
  · intro h hmem
    obtain ⟨p, hp, hpk⟩ := List.mem_map.mp hmem
    cases hf : m.find? (fun p => p.1 == k) with
    | none =>
      have := List.find?_eq_none.mp hf p hp
      simp [hpk] at this
    | some q => rw [hf] at h; simp at h
  · intro h
    cases hf : m.find? (fun p => p.1 == k) with
    | none => simp
    | some q =>
      have hq := List.find?_some hf
      have hqm := List.mem_of_find?_eq_some hf
      exact absurd (List.mem_map.mpr ⟨q, hqm, by simpa using hq⟩) h

/-- Lookup is invariant under permutation for maps with distinct keys. -/
theorem lookupKV_perm (m1 m2 : KVMap) (hperm : m1.Perm m2)
    (hnd : (m1.map Prod.fst).Nodup) (k : String) : lookupKV m1 k = lookupKV m2 k := by
  have hnd2 : (m2.map Prod.fst).Nodup := (List.Perm.nodup_iff (List.Perm.map _ hperm)).mp hnd
  cases h1 : lookupKV m1 k with
  | some v =>
    exact (lookupKV_eq_some_of_mem m2 k v hnd2
      (hperm.mem_iff.mp (mem_of_lookupKV_eq_some m1 k v h1))).symm
  | none =>
    have := (lookupKV_eq_none_iff m1 k).mp h1
    refine ((lookupKV_eq_none_iff m2 k).mpr ?_).symm
    intro hmem
    exact this ((List.Perm.mem_iff (List.Perm.map _ hperm)).mpr hmem)

/-! ## Characterisations of the three strategies -/

theorem foldl_dashStep_fst (c : Codec) (u : Nat) (z : List Nat) :
    ∀ (frames : List FrameMeta) (st : KVMap × List String),
      (frames.foldl (dashStep c u z) st).1 =
        insertAll st.1 ((okFramePairs c u z frames).flatten) := by
  intro frames
  induction frames with
  | nil => intro st; simp [okFramePairs, insertAll]
  | cons f fs ih =>
    intro st
    rw [List.foldl_cons, okFramePairs_cons]
    cases h : map_zstd_frame c u z f with
    | ok pd =>
      simp only [dashStep, h]
      rw [ih, List.flatten_cons, insertAll_append]
    | error e =>
      simp only [dashStep, h]
      rw [ih]

theorem read_dashmap_fst (c : Codec) (u : Nat) (z : List Nat) (frames : List FrameMeta) :
    (read_indexed_zstd_dashmap c u z frames).1 =
      insertAll [] ((okFramePairs c u z frames).flatten) :=
  foldl_dashStep_fst c u z frames ([], [])

theorem read_vector_fst (c : Codec) (u : Nat) (z : List Nat) (frames : List FrameMeta) :
    (read_indexed_zstd_vector c u z frames).1 =
      insertAll [] ((okFramePairs c u z frames).flatten) := rfl

theorem read_merge_fst (c : Codec) (u : Nat) (z : List Nat) (frames : List FrameMeta) :
    (read_indexed_zstd_merge c u z frames).1 =
      ((okFramePairs c u z frames).map (fun pairs => insertAll [] pairs)).foldl mergeStep [] :=
  rfl

theorem okFramePairs_filter (c : Codec) (u : Nat) (z : List Nat) :
    ∀ (frames : List FrameMeta),
      okFramePairs c u z (frames.filter (fun f => (map_zstd_frame c u z f).isOk)) =
        okFramePairs c u z frames := by
  intro frames
  induction frames with
  | nil => rfl
  | cons f fs ih =>
    cases h : map_zstd_frame c u z f with
    | ok pd =>
      rw [List.filter_cons_of_pos (by simp [h, Except.isOk, Except.toBool]),
        okFramePairs_cons, okFramePairs_cons, h, ih]
    | error e =>
      rw [List.filter_cons_of_neg (by simp [h, Except.isOk, Except.toBool]),
        okFramePairs_cons, h, ih]

theorem foldl_dashStep_logs_sub (c : Codec) (u : Nat) (z : List Nat) :
    ∀ (frames : List FrameMeta) (st : KVMap × List String) (x : String),
      x ∈ st.2 → x ∈ (frames.foldl (dashStep c u z) st).2 := by
  intro frames
  induction frames with
  | nil => intro st x hx; exact hx
  | cons f fs ih =>
    intro st x hx
    rw [List.foldl_cons]
    refine ih _ x ?_
    unfold dashStep
    cases map_zstd_frame c u z f <;> exact List.mem_append_left _ hx

theorem foldl_dashStep_logs_error (c : Codec) (u : Nat) (z : List Nat) :
    ∀ (frames : List FrameMeta) (st : KVMap × List String) (f : FrameMeta) (e : String),
      f ∈ frames → map_zstd_frame c u z f = .error e →
      e ∈ (frames.foldl (dashStep c u z) st).2 := by
  intro frames
  induction frames with
  | nil => intro _ _ _ hf _; simp at hf
  | cons f0 fs ih =>
    intro st f e hf he
    rw [List.foldl_cons]
    rcases List.mem_cons.mp hf with h | h
    · subst h
      refine foldl_dashStep_logs_sub c u z fs _ e ?_
      unfold dashStep
      rw [he]
      exact List.mem_append_right _ (List.mem_singleton.mpr rfl)
    · exact ih _ f e h he

/-! ## Further chunking lemmas -/

theorem chunksOf_flatten_aux (bs : Nat) :
    ∀ (n : Nat) (ls : List (List Nat)), ls.length ≤ n →
      (chunksOf bs ls).flatten = ls.flatten := by
  intro n
  induction n with
  | zero =>
    intro ls hls
    have : ls = [] := List.length_eq_zero.mp (Nat.le_zero.mp hls)
    subst this
    rw [chunksOf_nil]
  | succ n ih =>
    intro ls hls
    cases ls with
    | nil => rw [chunksOf_nil]
    | cons l rest =>
      rw [chunksOf_cons, List.flatten_cons]
      obtain ⟨k, _, _, heq, _⟩ := takeChunk_split (l :: rest) bs 0
      have hlen : ((takeChunk bs 0 (l :: rest)).2).length ≤ n := by
        have := takeChunk_snd_le bs rest 0 l
        simp only [List.length_cons] at hls
        omega
      rw [ih _ hlen, heq]
      rw [← List.flatten_append, List.take_append_drop]

/-- Chunking loses no bytes: the chunks flatten back to the line bytes. -/
theorem chunksOf_flatten (bs : Nat) (ls : List (List Nat)) :
    (chunksOf bs ls).flatten = ls.flatten :=
  chunksOf_flatten_aux bs ls.length ls (le_refl _)

/-- When every line already reaches the block size, each chunk is exactly
one line. -/
theorem chunksOf_all_big (bs : Nat) :
    ∀ (ls : List (List Nat)), (∀ l ∈ ls, bs ≤ l.length) → chunksOf bs ls = ls := by
  intro ls
  induction ls with
  | nil => intro _; rw [chunksOf_nil]
  | cons l rest ih =>
    intro hbig
    rw [chunksOf_cons, takeChunk_cons,
      if_pos (by simpa using hbig l (List.mem_cons_self l rest))]
    rw [ih (fun x hx => hbig x (List.mem_cons_of_mem l hx))]

theorem linesEndNL_get : ∀ (ls : List (List Nat)), LinesEndNL ls →
    ∀ (j : Nat) (h : j + 1 < ls.length), (ls.get ⟨j, by omega⟩).getLast? = some 10 := by
  intro ls
  induction ls with
  | nil => intro _ j h; simp at h
  | cons l rest ih =>
    intro hnl j h
    cases j with
    | zero =>
      cases rest with
      | nil => simp at h
      | cons l2 ls2 => exact hnl.1
    | succ j2 =>
      have h2 : j2 + 1 < rest.length := by simpa using h
      exact ih (linesEndNL_tail hnl) j2 h2

/-- A chunk that does not exhaust the line list ends in a newline
byte. -/
theorem flatten_take_getLast (ls : List (List Nat)) (k : Nat) (h1 : 1 ≤ k)
    (h2 : k < ls.length) (hne : ∀ l ∈ ls, l ≠ []) (hnl : LinesEndNL ls) :
    ((ls.take k).flatten).getLast? = some 10 := by
  obtain ⟨j, rfl⟩ : ∃ j, k = j + 1 := ⟨k - 1, by omega⟩
  have hj : j < ls.length := by omega
  rw [List.take_succ, List.getElem?_eq_getElem hj]
  rw [show (some ls[j]).toList = [ls[j]] from rfl, List.flatten_append]
  have hlj : ls[j] ≠ [] := hne _ (List.getElem_mem hj)
  rw [List.getLast?_append_of_ne_nil _ (by simpa using hlj)]
  have := linesEndNL_get ls hnl j h2
  simpa using this

/-- Flatten decomposed around the `i`-th block. -/
theorem flatten_decomp (zs : List (List Nat)) (i : Nat) (h : i < zs.length) :
    zs.flatten = (zs.take i).flatten ++ (zs.get ⟨i, h⟩ ++ (zs.drop (i + 1)).flatten) := by
  conv_lhs => rw [← List.take_append_drop i zs]
  rw [List.flatten_append, List.drop_eq_getElem_cons h, List.flatten_cons]
  rfl

/-- When every pending line on its own reaches the block size, the
writer loop behaves identically on a stream that fails after those lines
and on one that simply ends after them: the `while let Ok(Some(_))`
pattern treats the read error exactly like end-of-input. -/
theorem writeLoop_pre_error (c : Codec) (lvl : Int) (bs : Nat) (e : String)
    (rest : List ReadOutcome) (hc : ∀ lv ch, ∃ out, c.comp lv ch = .ok out) :
    ∀ (pre : List (List Nat)) (fuel1 fuel2 : Nat) (file : List Nat) (recs : List FrameMeta)
      (seq : Nat),
      (∀ l ∈ pre, l ≠ [] ∧ bs ≤ l.length) → pre.length < fuel1 → pre.length < fuel2 →
      writeLoop c lvl bs fuel1 ((pre.map .ok) ++ .error e :: rest) file recs seq =
        writeLoop c lvl bs fuel2 (pre.map .ok) file recs seq := by
  intro pre
  induction pre with
  | nil =>
    intro fuel1 fuel2 file recs seq _ h1 h2
    cases fuel1 with
    | zero => omega
    | succ f1 =>
      cases fuel2 with
      | zero => omega
      | succ f2 =>
        rw [writeLoop, writeLoop]
        rfl
  | cons l pre2 ih =>
    intro fuel1 fuel2 file recs seq hbig h1 h2
    cases fuel1 with
    | zero => omega
    | succ f1 =>
      cases fuel2 with
      | zero => omega
      | succ f2 =>
        obtain ⟨hlne, hlbig⟩ := hbig l (List.mem_cons_self l pre2)
        have hlen : l.length ≠ 0 := fun h => hlne (List.length_eq_zero.mp h)
        have hle : bs ≤ 0 + l.length := by omega
        have hrc1 : read_chunk ((l :: pre2).map .ok ++ .error e :: rest) [] bs =
            (.ok (some (0 + l.length)), [] ++ l, (pre2.map .ok ++ .error e :: rest)) := by
          rw [List.map_cons, List.cons_append, read_chunk, read_chunk_go, if_neg hlen,
            if_pos hle]
        have hrc2 : read_chunk ((l :: pre2).map .ok) [] bs =
            (.ok (some (0 + l.length)), [] ++ l, pre2.map .ok) := by
          rw [List.map_cons, read_chunk, read_chunk_go, if_neg hlen, if_pos hle]
        rw [writeLoop, hrc1]
        rw [writeLoop, hrc2]
        dsimp only
        obtain ⟨out, hout⟩ := hc lvl ([] ++ l)
        have henc : encode_zstd_block c file ([] ++ l) lvl =
            .ok (file ++ out, file.length, (file ++ out).length) := by
          unfold encode_zstd_block
          rw [hout]
        rw [henc]
        dsimp only
        exact ih f1 f2 (file ++ out)
          (recs ++ [⟨file.length, (file ++ out).length - file.length, seq⟩]) (seq + 1)
          (fun x hx => hbig x (List.mem_cons_of_mem l hx))
          (by simpa using h1) (by simpa using h2)

/-! ## Concrete instances used by witnesses -/

/-- The error-free read-outcome stream of the byte stream `s`. -/
def honestReader (s : List Nat) : List ReadOutcome := (byteLines s).map .ok

/-- The identity codec: a frame's bytes are its content; both directions
always succeed.  Used to instantiate witnesses. -/
def idCodec : Codec := ⟨fun _ ch => .ok ch, fun b => .ok b⟩

/-- A codec whose encoder always fails.  Used to instantiate the
atomicity witness. -/
def failCodec : Codec := ⟨fun _ _ => .error "encode failed", fun b => .ok b⟩

/-! ## Claim theorems -/

/-- C2.  Frame contiguity invariant: every compression pass that writes
descriptors writes them with `order = 0, 1, 2, …`, consecutive
descriptors satisfying `position + length = next position`, and the last
descriptor's `position + length` equal to the compressed file's total
size. -/
theorem frame_contiguity (c : Codec) (s : List Nat) (bs : Nat) (lvl : Int)
    (recs : List FrameMeta)
    (hidx : (write_indexed_zstd c (honestReader s) [] bs lvl).1.idxWritten = some recs) :
    (∀ i (h : i < recs.length), (recs.get ⟨i, h⟩).order = i) ∧
    (∀ i (h : i + 1 < recs.length),
      (recs.get ⟨i, Nat.lt_of_succ_lt h⟩).position +
        (recs.get ⟨i, Nat.lt_of_succ_lt h⟩).length = (recs.get ⟨i + 1, h⟩).position) ∧
    (∀ f, recs.getLast? = some f →
      f.position + f.length =
        (write_indexed_zstd c (honestReader s) [] bs lvl).1.zstdFile.length) := by
  have hfuel : (byteLines s).length < (honestReader s).length + 1 := by
    simp [honestReader]
  have hW : write_indexed_zstd c (honestReader s) [] bs lvl =
      writeLoop c lvl bs ((honestReader s).length + 1) ((byteLines s).map .ok) [] [] 0 := rfl
  rcases writeLoop_cases c lvl bs ((honestReader s).length + 1) (byteLines s) [] [] 0
      (byteLines_ne_nil s) hfuel with ⟨zs, hall, heq⟩ | ⟨e, f2, ch, herr, heq⟩
  · rw [hW, heq] at hidx ⊢
    have hrecs : recs = mkFrames 0 0 zs := by simpa using hidx.symm
    subst hrecs
    have hlen : (mkFrames 0 0 zs).length = zs.length := mkFrames_length zs 0 0
    refine ⟨?_, ?_, ?_⟩
    · intro i h
      have hz : i < zs.length := by omega
      rw [mkFrames_get zs 0 0 i hz]
      simp
    · intro i h
      have hz : i < zs.length := by omega
      have hz1 : i + 1 < zs.length := by omega
      rw [mkFrames_get zs 0 0 i hz, mkFrames_get zs 0 0 (i + 1) hz1]
      have htake : (zs.take (i + 1)).flatten = (zs.take i).flatten ++ zs.get ⟨i, hz⟩ := by
        rw [List.take_succ, List.getElem?_eq_getElem hz, List.flatten_append]
        simp [List.get_eq_getElem]
      simp only [htake, List.length_append]
      omega
    · intro f hf
      have := mkFrames_getLast zs 0 0 f hf
      simpa using this
  · rw [hW, heq] at hidx
    simp at hidx

/-- C2 witness. -/
theorem frame_contiguity_witness :
    (∀ i (h : i < ([⟨0, 2, 0⟩, ⟨2, 3, 1⟩] : List FrameMeta).length),
      (([⟨0, 2, 0⟩, ⟨2, 3, 1⟩] : List FrameMeta).get ⟨i, h⟩).order = i) ∧
    (∀ i (h : i + 1 < ([⟨0, 2, 0⟩, ⟨2, 3, 1⟩] : List FrameMeta).length),
      (([⟨0, 2, 0⟩, ⟨2, 3, 1⟩] : List FrameMeta).get ⟨i, Nat.lt_of_succ_lt h⟩).position +
        (([⟨0, 2, 0⟩, ⟨2, 3, 1⟩] : List FrameMeta).get ⟨i, Nat.lt_of_succ_lt h⟩).length =
        (([⟨0, 2, 0⟩, ⟨2, 3, 1⟩] : List FrameMeta).get ⟨i + 1, h⟩).position) ∧
    (∀ f, ([⟨0, 2, 0⟩, ⟨2, 3, 1⟩] : List FrameMeta).getLast? = some f →
      f.position + f.length =
        (write_indexed_zstd idCodec (honestReader [97, 10, 98, 98, 10]) [] 1 3).1.zstdFile.length) :=
  frame_contiguity idCodec [97, 10, 98, 98, 10] 1 3 [⟨0, 2, 0⟩, ⟨2, 3, 1⟩] (by decide)

/-- C7.  Indexed-writer atomicity: if the pass fails (a single-frame
encode step failed) nothing at all is written to the index stream; if it
returns `Ok` the index is complete — one descriptor per chunk — and its
last descriptor's `position + length` equals the final compressed file
size. -/
theorem writer_atomicity (c : Codec) (s : List Nat) (bs : Nat) (lvl : Int) :
    (∀ e, (write_indexed_zstd c (honestReader s) [] bs lvl).2 = .error e →
      (write_indexed_zstd c (honestReader s) [] bs lvl).1.idxWritten = none) ∧
    ((write_indexed_zstd c (honestReader s) [] bs lvl).2 = .ok () →
      ∃ recs, (write_indexed_zstd c (honestReader s) [] bs lvl).1.idxWritten = some recs ∧
        recs.length = (chunksOf bs (byteLines s)).length ∧
        (∀ f, recs.getLast? = some f →
          f.position + f.length =
            (write_indexed_zstd c (honestReader s) [] bs lvl).1.zstdFile.length)) := by
  have hfuel : (byteLines s).length < (honestReader s).length + 1 := by
    simp [honestReader]
  have hW : write_indexed_zstd c (honestReader s) [] bs lvl =
      writeLoop c lvl bs ((honestReader s).length + 1) ((byteLines s).map .ok) [] [] 0 := rfl
  rcases writeLoop_cases c lvl bs ((honestReader s).length + 1) (byteLines s) [] [] 0
      (byteLines_ne_nil s) hfuel with ⟨zs, hall, heq⟩ | ⟨e, f2, ch, herr, heq⟩
  · rw [hW, heq]
    constructor
    · intro e he
      simp at he
    · intro _
      refine ⟨mkFrames 0 0 zs, by simp, ?_, ?_⟩
      · rw [mkFrames_length]
        exact (List.Forall₂.length_eq hall).symm
      · intro f hf
        have hlast := mkFrames_getLast zs 0 0 f hf
        simpa using hlast
  · rw [hW, heq]
    constructor
    · intro e2 _
      rfl
    · intro hok
      simp at hok

/-- C7 witness: a fully successful pass has a complete index; a pass
whose encoder fails writes no index at all. -/
theorem writer_atomicity_witness :
    (∃ recs,
      (write_indexed_zstd idCodec (honestReader [97, 10, 98, 98, 10]) [] 1 3).1.idxWritten =
        some recs ∧
      recs.length = (chunksOf 1 (byteLines [97, 10, 98, 98, 10])).length ∧
      (∀ f, recs.getLast? = some f →
        f.position + f.length =
          (write_indexed_zstd idCodec
            (honestReader [97, 10, 98, 98, 10]) [] 1 3).1.zstdFile.length)) ∧
    (write_indexed_zstd failCodec (honestReader [97, 10]) [] 1 3).1.idxWritten = none :=
  ⟨(writer_atomicity idCodec [97, 10, 98, 98, 10] 1 3).2 (by rfl),
   (writer_atomicity failCodec [97, 10] 1 3).1 "encode failed" (by rfl)⟩

/-- C9.  An I/O error from the input reader is not propagated: the
`while let Ok(Some(_))` loop treats it like end-of-input, so the writer
returns `Ok` and serializes an index covering exactly the chunks
completed before the error (here: one frame per preceding line, each
line reaching the block size), ignoring everything after the error. -/
theorem reader_error_treated_as_eof (c : Codec) (lvl : Int) (bs : Nat)
    (pre : List (List Nat)) (e : String) (rest : List ReadOutcome)
    (hc : ∀ lv ch, ∃ out, c.comp lv ch = .ok out)
    (hpre : ∀ l ∈ pre, l ≠ [] ∧ bs ≤ l.length) :
    write_indexed_zstd c ((pre.map .ok) ++ .error e :: rest) [] bs lvl =
      write_indexed_zstd c (pre.map .ok) [] bs lvl ∧
    (write_indexed_zstd c ((pre.map .ok) ++ .error e :: rest) [] bs lvl).2 = .ok () ∧
    (∃ recs,
      (write_indexed_zstd c ((pre.map .ok) ++ .error e :: rest) [] bs lvl).1.idxWritten =
        some recs ∧ recs.length = pre.length) := by
  have h1 : pre.length <
      ((pre.map Except.ok ++ Except.error e :: rest : List ReadOutcome)).length + 1 := by
    simp only [List.length_append, List.length_map, List.length_cons]
    omega
  have h2 : pre.length < ((pre.map Except.ok : List ReadOutcome)).length + 1 := by
    simp
  have hEq : write_indexed_zstd c ((pre.map .ok) ++ .error e :: rest) [] bs lvl =
      write_indexed_zstd c (pre.map .ok) [] bs lvl :=
    writeLoop_pre_error c lvl bs e rest hc pre
      (((pre.map Except.ok ++ Except.error e :: rest : List ReadOutcome)).length + 1)
      (((pre.map Except.ok : List ReadOutcome)).length + 1)
      [] [] 0 hpre h1 h2
  have hok := writeLoop_ok c lvl bs hc
      (((pre.map Except.ok : List ReadOutcome)).length + 1) pre
      [] [] 0 (fun l hl => (hpre l hl).1) h2
  have hW : write_indexed_zstd c (pre.map .ok) [] bs lvl =
      writeLoop c lvl bs (((pre.map Except.ok : List ReadOutcome)).length + 1)
        (pre.map .ok) [] [] 0 := rfl
  refine ⟨hEq, ?_, ?_⟩
  · rw [hEq, hW, hok]
  · rw [hEq, hW, hok]
    refine ⟨mkFrames 0 0 ((chunksOf bs pre).map (compOk c lvl)), by simp, ?_⟩
    rw [mkFrames_length, List.length_map,
      chunksOf_all_big bs pre (fun l hl => (hpre l hl).2)]

/-- C9 witness: two whole lines, then an I/O error, then more data — the
pass succeeds with an index of exactly two frames. -/
theorem reader_error_treated_as_eof_witness :
    write_indexed_zstd idCodec (([[97, 10], [98, 10]].map .ok) ++
        .error "io error" :: [.ok [99, 10]]) [] 1 3 =
      write_indexed_zstd idCodec ([[97, 10], [98, 10]].map .ok) [] 1 3 ∧
    (write_indexed_zstd idCodec (([[97, 10], [98, 10]].map .ok) ++
        .error "io error" :: [.ok [99, 10]]) [] 1 3).2 = .ok () ∧
    (∃ recs,
      (write_indexed_zstd idCodec (([[97, 10], [98, 10]].map .ok) ++
          .error "io error" :: [.ok [99, 10]]) [] 1 3).1.idxWritten =
        some recs ∧ recs.length = ([[97, 10], [98, 10]] : List (List Nat)).length) :=
  reader_error_treated_as_eof idCodec 3 1 [[97, 10], [98, 10]] "io error" [.ok [99, 10]]
    (fun _ ch => ⟨ch, rfl⟩) (by decide)

/-- C10.  `block_size` is never validated: with `block_size = 0` the
chunker returns without error and every chunk is exactly one line (the
first line read already reaches the block size), so a whole pass writes
one frame per input line. -/
theorem block_size_zero (c : Codec) (s : List Nat) (lvl : Int)
    (hc : ∀ lv ch, ∃ out, c.comp lv ch = .ok out) :
    (∀ (buffer l : List Nat) (rest : List (List Nat)), byteLines s = l :: rest →
      read_chunk (honestReader s) buffer 0 =
        (.ok (some l.length), buffer ++ l, rest.map .ok)) ∧
    chunksOf 0 (byteLines s) = byteLines s ∧
    (write_indexed_zstd c (honestReader s) [] 0 lvl).2 = .ok () ∧
    (∃ recs, (write_indexed_zstd c (honestReader s) [] 0 lvl).1.idxWritten = some recs ∧
      recs.length = (byteLines s).length) := by
  have hfuel : (byteLines s).length < (honestReader s).length + 1 := by
    simp [honestReader]
  have hW : write_indexed_zstd c (honestReader s) [] 0 lvl =
      writeLoop c lvl 0 ((honestReader s).length + 1) ((byteLines s).map .ok) [] [] 0 := rfl
  have hok := writeLoop_ok c lvl 0 hc ((honestReader s).length + 1) (byteLines s)
      [] [] 0 (byteLines_ne_nil s) hfuel
  have hchunks : chunksOf 0 (byteLines s) = byteLines s :=
    chunksOf_all_big 0 (byteLines s) (fun l _ => Nat.zero_le _)
  refine ⟨?_, hchunks, ?_, ?_⟩
  · intro buffer l rest hbl
    have hlne : l ≠ [] := byteLines_ne_nil s l (hbl ▸ List.mem_cons_self l rest)
    have hlen : l.length ≠ 0 := fun h => hlne (List.length_eq_zero.mp h)
    rw [honestReader, hbl, List.map_cons, read_chunk, read_chunk_go, if_neg hlen,
      if_pos (Nat.zero_le (0 + l.length))]
    rw [Nat.zero_add]
  · rw [hW, hok]
  · rw [hW, hok]
    refine ⟨mkFrames 0 0 ((chunksOf 0 (byteLines s)).map (compOk c lvl)), by simp, ?_⟩
    rw [mkFrames_length, List.length_map, hchunks]

/-- C10 witness. -/
theorem block_size_zero_witness :
    (∀ (buffer l : List Nat) (rest : List (List Nat)),
      byteLines [97, 10, 98, 10] = l :: rest →
      read_chunk (honestReader [97, 10, 98, 10]) buffer 0 =
        (.ok (some l.length), buffer ++ l, rest.map .ok)) ∧
    chunksOf 0 (byteLines [97, 10, 98, 10]) = byteLines [97, 10, 98, 10] ∧
    (write_indexed_zstd idCodec (honestReader [97, 10, 98, 10]) [] 0 3).2 = .ok () ∧
    (∃ recs,
      (write_indexed_zstd idCodec (honestReader [97, 10, 98, 10]) [] 0 3).1.idxWritten =
        some recs ∧ recs.length = (byteLines [97, 10, 98, 10]).length) :=
  block_size_zero idCodec [97, 10, 98, 10] 3 (fun _ ch => ⟨ch, rfl⟩)

/-- C3.  Chunk line alignment: every chunk the chunker produces is the
flattening of a whole-line prefix of the remaining input (so no boundary
falls mid-line and an over-long line is included whole), and a chunk
that does not exhaust the input ends with a newline byte. -/
theorem chunk_line_alignment (s : List Nat) (buf : List Nat) (bs : Nat) (hbs : 0 < bs)
    (hs : s ≠ []) :
    ∃ k, k ≤ (byteLines s).length ∧ 1 ≤ k ∧
      read_chunk (honestReader s) buf bs =
        (.ok (some (((byteLines s).take k).flatten).length),
         buf ++ ((byteLines s).take k).flatten,
         ((byteLines s).drop k).map .ok) ∧
      (k < (byteLines s).length →
        (((byteLines s).take k).flatten).getLast? = some 10) := by
  have hlb : byteLines s ≠ [] := by
    intro h
    apply hs
    rw [← byteLines_flatten s, h]
    rfl
  obtain ⟨k, hk, hk1, heq, _⟩ := takeChunk_split (byteLines s) bs 0
  have hrc := read_chunk_go_ok (byteLines s) buf bs 0 (byteLines_ne_nil s) hlb
  refine ⟨k, hk, hk1 hlb, ?_, ?_⟩
  · show read_chunk_go ((byteLines s).map .ok) buf bs 0 = _
    rw [hrc, heq]
    simp
  · intro hlt
    exact flatten_take_getLast (byteLines s) k (hk1 hlb) hlt (byteLines_ne_nil s)
      (byteLines_endNL s)

/-- C3 witness. -/
theorem chunk_line_alignment_witness :
    ∃ k, k ≤ (byteLines [97, 98, 10, 99, 10]).length ∧ 1 ≤ k ∧
      read_chunk (honestReader [97, 98, 10, 99, 10]) [] 1 =
        (.ok (some (((byteLines [97, 98, 10, 99, 10]).take k).flatten).length),
         [] ++ ((byteLines [97, 98, 10, 99, 10]).take k).flatten,
         ((byteLines [97, 98, 10, 99, 10]).drop k).map .ok) ∧
      (k < (byteLines [97, 98, 10, 99, 10]).length →
        (((byteLines [97, 98, 10, 99, 10]).take k).flatten).getLast? = some 10) :=
  chunk_line_alignment [97, 98, 10, 99, 10] [] 1 (by decide) (by decide)

/-- C8.  Chunker contract: the chunker signals end-of-input (`Ok(None)`)
exactly when the stream is already exhausted (the first read yields
nothing and the accumulation is empty); otherwise it accumulates whole
lines until the running total reaches the block size or the stream ends,
and returns `Ok(Some(n))` with `n` the bytes read in this call. -/
theorem chunker_contract (s : List Nat) (buf : List Nat) (bs : Nat) :
    (s = [] → read_chunk (honestReader s) buf bs = (.ok none, buf, [])) ∧
    (s ≠ [] →
      read_chunk (honestReader s) buf bs =
        (.ok (some ((takeChunk bs 0 (byteLines s)).1).length),
         buf ++ (takeChunk bs 0 (byteLines s)).1,
         ((takeChunk bs 0 (byteLines s)).2).map .ok) ∧
      (takeChunk bs 0 (byteLines s)).1 ≠ [] ∧
      (bs ≤ ((takeChunk bs 0 (byteLines s)).1).length ∨
        (takeChunk bs 0 (byteLines s)).2 = [])) := by
  constructor
  · intro h
    subst h
    rfl
  · intro hs
    have hlb : byteLines s ≠ [] := by
      intro h
      apply hs
      rw [← byteLines_flatten s, h]
      rfl
    have hrc := read_chunk_go_ok (byteLines s) buf bs 0 (byteLines_ne_nil s) hlb
    obtain ⟨k, hk, hk1, heq, hter⟩ := takeChunk_split (byteLines s) bs 0
    refine ⟨?_, ?_, ?_⟩
    · show read_chunk_go ((byteLines s).map .ok) buf bs 0 = _
      rw [hrc]
      simp
    · rw [heq]
      cases hbl : byteLines s with
      | nil => exact absurd hbl hlb
      | cons l rest =>
        have hlne : l ≠ [] := byteLines_ne_nil s l (hbl ▸ List.mem_cons_self l rest)
        obtain ⟨j, rfl⟩ : ∃ j, k = j + 1 := ⟨k - 1, by have := hk1 hlb; omega⟩
        simp only [List.take_succ_cons, List.flatten_cons]
        intro hcontra
        exact hlne (List.append_eq_nil.mp hcontra).1
    · rcases hter with h | h
      · left
        rw [heq]
        simpa using h
      · right
        rw [heq, h]
        simp

/-- C8 witness: the end-of-input case on an empty stream and the
accumulate case on a two-line stream. -/
theorem chunker_contract_witness :
    read_chunk (honestReader []) [] 5 = (.ok none, [], []) ∧
    (read_chunk (honestReader [97, 10, 98, 10]) [] 5 =
      (.ok (some ((takeChunk 5 0 (byteLines [97, 10, 98, 10])).1).length),
       [] ++ (takeChunk 5 0 (byteLines [97, 10, 98, 10])).1,
       ((takeChunk 5 0 (byteLines [97, 10, 98, 10])).2).map .ok) ∧
     (takeChunk 5 0 (byteLines [97, 10, 98, 10])).1 ≠ [] ∧
     (5 ≤ ((takeChunk 5 0 (byteLines [97, 10, 98, 10])).1).length ∨
       (takeChunk 5 0 (byteLines [97, 10, 98, 10])).2 = [])) :=
  ⟨(chunker_contract [] [] 5).1 rfl, (chunker_contract [97, 10, 98, 10] [] 5).2 (by decide)⟩

/-- Reading the `i`-th block of a concatenation of blocks by its offset
and length and decoding it is decoding exactly that block. -/
theorem map_zstd_frame_bytes_get (c : Codec) (usizeMax : Nat) (zs : List (List Nat)) (i : Nat)
    (hziz : i < zs.length) (hmax : zs.flatten.length ≤ usizeMax) :
    map_zstd_frame_bytes c usizeMax zs.flatten
      ⟨((zs.take i).flatten).length, (zs.get ⟨i, hziz⟩).length, i⟩ =
    c.decomp (zs.get ⟨i, hziz⟩) := by
  have hd := flatten_decomp zs i hziz
  have hlen : ((zs.take i).flatten).length + (zs.get ⟨i, hziz⟩).length ≤
      zs.flatten.length := by
    conv_rhs => rw [hd]
    simp [List.length_append]
  have hpl : FrameMeta.parse_length
      ⟨((zs.take i).flatten).length, (zs.get ⟨i, hziz⟩).length, i⟩ usizeMax =
      .ok ((zs.get ⟨i, hziz⟩).length) := by
    unfold FrameMeta.parse_length
    dsimp only
    rw [if_pos (by omega)]
  have hre : read_exact_at zs.flatten ((zs.get ⟨i, hziz⟩).length)
      (((zs.take i).flatten).length) = .ok (zs.get ⟨i, hziz⟩) := by
    unfold read_exact_at
    rw [if_pos (by omega)]
    congr 1
    conv_lhs => rw [hd]
    rw [List.drop_left, List.take_left]
  unfold map_zstd_frame_bytes
  rw [hpl]
  dsimp only
  rw [hre]

/-- C1.  Round-trip fidelity and single-frame isolation: after a
successful pass over any input, every frame decodes on its own — a
positional read of exactly `length` bytes at `position` followed by a
single-frame decode — back to the chunk that produced it, and the chunks
concatenated in index order are the original input, byte for byte. -/
theorem frames_roundtrip (c : Codec) (s : List Nat) (bs : Nat) (lvl : Int) (usizeMax : Nat)
    (hc : ∀ lv ch, ∃ out, c.comp lv ch = .ok out)
    (hrt : ∀ lv ch out, c.comp lv ch = .ok out → c.decomp out = .ok ch)
    (hbs : 0 < bs)
    (hmax : (write_indexed_zstd c (honestReader s) [] bs lvl).1.zstdFile.length ≤ usizeMax) :
    ∃ (recs : List FrameMeta) (chunks : List (List Nat)),
      (write_indexed_zstd c (honestReader s) [] bs lvl).1.idxWritten = some recs ∧
      recs.length = chunks.length ∧
      (∀ i (h1 : i < recs.length) (h2 : i < chunks.length),
        map_zstd_frame_bytes c usizeMax
            (write_indexed_zstd c (honestReader s) [] bs lvl).1.zstdFile
            (recs.get ⟨i, h1⟩) =
          .ok (chunks.get ⟨i, h2⟩)) ∧
      chunks.flatten = s := by
  have hfuel : (byteLines s).length < (honestReader s).length + 1 := by
    simp [honestReader]
  have hW : write_indexed_zstd c (honestReader s) [] bs lvl =
      writeLoop c lvl bs ((honestReader s).length + 1) ((byteLines s).map .ok) [] [] 0 := rfl
  have hok := writeLoop_ok c lvl bs hc ((honestReader s).length + 1) (byteLines s)
      [] [] 0 (byteLines_ne_nil s) hfuel
  rw [hW, hok] at hmax ⊢
  refine ⟨mkFrames 0 0 ((chunksOf bs (byteLines s)).map (compOk c lvl)),
    chunksOf bs (byteLines s), by simp, ?_, ?_, ?_⟩
  · rw [mkFrames_length, List.length_map]
  · intro i h1 h2
    have hziz : i < ((chunksOf bs (byteLines s)).map (compOk c lvl)).length := by
      rw [List.length_map]
      exact h2
    rw [mkFrames_get ((chunksOf bs (byteLines s)).map (compOk c lvl)) 0 0 i hziz]
    simp only [Nat.zero_add, List.nil_append]
    have hmax2 : (((chunksOf bs (byteLines s)).map (compOk c lvl)).flatten).length ≤
        usizeMax := by
      simpa using hmax
    rw [map_zstd_frame_bytes_get c usizeMax _ i hziz hmax2]
    have hget : ((chunksOf bs (byteLines s)).map (compOk c lvl)).get ⟨i, hziz⟩ =
        compOk c lvl ((chunksOf bs (byteLines s)).get ⟨i, h2⟩) := by
      simp [List.get_eq_getElem, List.getElem_map]
    obtain ⟨out, hout⟩ := hc lvl ((chunksOf bs (byteLines s)).get ⟨i, h2⟩)
    have hco : compOk c lvl ((chunksOf bs (byteLines s)).get ⟨i, h2⟩) = out := by
      unfold compOk
      rw [hout]
    rw [hget, hco]
    exact hrt lvl _ out hout
  · rw [chunksOf_flatten bs (byteLines s)]
    exact byteLines_flatten s

/-- C1 witness. -/
theorem frames_roundtrip_witness :
    ∃ (recs : List FrameMeta) (chunks : List (List Nat)),
      (write_indexed_zstd idCodec (honestReader [97, 10, 98, 10]) [] 1 3).1.idxWritten =
        some recs ∧
      recs.length = chunks.length ∧
      (∀ i (h1 : i < recs.length) (h2 : i < chunks.length),
        map_zstd_frame_bytes idCodec 4
            (write_indexed_zstd idCodec (honestReader [97, 10, 98, 10]) [] 1 3).1.zstdFile
            (recs.get ⟨i, h1⟩) =
          .ok (chunks.get ⟨i, h2⟩)) ∧
      chunks.flatten = [97, 10, 98, 10] :=
  frames_roundtrip idCodec [97, 10, 98, 10] 1 3 4 (fun _ ch => ⟨ch, rfl⟩)
    (fun _ _ _ h => by cases h; rfl) (by decide) (by decide)

/-- The Record Parser contract as the spec states it, one line at a
time: `none` for a line without a separator (skipped); otherwise the
pair of the permissively-decoded key and the parsed value — `0` with a
diagnostic naming the key when the value fails to parse. -/
def parseLineSpec (line : List Nat) : Option ((String × Nat) × List String) :=
  match line.findIdx? (fun b => b == 9) with
  | none => none
  | some i =>
    match parse_bytes_to_numeric (line.drop (i + 1)) with
    | .ok t => some ((decodeKey (line.take i), t), [])
    | .error e =>
      some ((decodeKey (line.take i), 0),
        ["Error parsing record " ++ decodeKey (line.take i) ++ ". " ++ e])

theorem foldl_parseLineStep (lines : List (List Nat)) :
    ∀ (st : List (String × Nat) × List String),
      lines.foldl parseLineStep st =
        (st.1 ++ (lines.filterMap parseLineSpec).map Prod.fst,
         st.2 ++ ((lines.filterMap parseLineSpec).map Prod.snd).flatten) := by
  induction lines with
  | nil => intro st; simp
  | cons line rest ih =>
    intro st
    rw [List.foldl_cons, ih (parseLineStep st line), List.filterMap_cons]
    cases hf : line.findIdx? (fun b => b == 9) with
    | none => simp [parseLineStep, parseLineSpec, hf]
    | some i =>
      cases hp : parse_bytes_to_numeric (line.drop (i + 1)) with
      | ok t => simp [parseLineStep, parseLineSpec, hf, hp]
      | error e => simp [parseLineStep, parseLineSpec, hf, hp]

/-- C5.  Record parser contract: `parse_lines_to_map` is exactly the
per-line spec mapped over the newline-split segments — no-separator
lines are skipped, pairs come in line order with duplicates preserved —
and concretely, the line `foo<TAB>NaN` yields the retained record
`("foo", 0)` plus one diagnostic naming the key, duplicate keys are both
kept, and a separator-less line is skipped without error. -/
theorem record_parser_contract :
    (∀ buf : List Nat,
      parse_lines_to_map buf =
        (((splitOnByte 10 buf).filterMap parseLineSpec).map Prod.fst,
         (((splitOnByte 10 buf).filterMap parseLineSpec).map Prod.snd).flatten)) ∧
    parse_lines_to_map [102, 111, 111, 9, 78, 97, 78] =
      ([("foo", 0)],
       ["Error parsing record foo. Unable to convert value to numeric. Taxid will be reported as 0!"]) ∧
    parse_lines_to_map [97, 9, 49, 10, 97, 9, 50, 10] = ([("a", 1), ("a", 2)], []) ∧
    parse_lines_to_map [120, 10, 107, 9, 51, 10] = ([("k", 3)], []) := by
  refine ⟨?_, by decide, by decide, by decide⟩
  intro buf
  unfold parse_lines_to_map
  rw [foldl_parseLineStep]
  simp

/-- C6.  Strategy equivalence: when the successfully decoded frames
contain no duplicate keys, the three aggregation strategies produce the
same mapping — dashmap and vector literally coincide, and merge agrees
with them on every lookup, on the key set, and on the total size. -/
theorem strategy_equivalence (c : Codec) (usizeMax : Nat) (zfile : List Nat)
    (frames : List FrameMeta)
    (hnd : (((okFramePairs c usizeMax zfile frames).flatten).map Prod.fst).Nodup) :
    (read_indexed_zstd_dashmap c usizeMax zfile frames).1 =
      (read_indexed_zstd_vector c usizeMax zfile frames).1 ∧
    (∀ k, lookupKV (read_indexed_zstd_vector c usizeMax zfile frames).1 k =
      lookupKV (read_indexed_zstd_merge c usizeMax zfile frames).1 k) ∧
    (∀ k, k ∈ ((read_indexed_zstd_vector c usizeMax zfile frames).1.map Prod.fst) ↔
      k ∈ ((read_indexed_zstd_merge c usizeMax zfile frames).1.map Prod.fst)) ∧
    (read_indexed_zstd_vector c usizeMax zfile frames).1.length =
      (read_indexed_zstd_merge c usizeMax zfile frames).1.length := by
  have hv : (read_indexed_zstd_vector c usizeMax zfile frames).1 =
      (okFramePairs c usizeMax zfile frames).flatten := by
    rw [read_vector_fst]
    exact insertAll_fresh _ [] (by simpa using hnd)
  have hlocals : (okFramePairs c usizeMax zfile frames).map (fun pairs => insertAll [] pairs) =
      okFramePairs c usizeMax zfile frames := by
    have hpt : ∀ pairs ∈ okFramePairs c usizeMax zfile frames,
        insertAll [] pairs = pairs := by
      intro pairs hpairs
      have hsub : (pairs.map Prod.fst).Sublist
          (((okFramePairs c usizeMax zfile frames).flatten).map Prod.fst) :=
        ((List.infix_of_mem_flatten hpairs).sublist).map Prod.fst
      have hndp : (pairs.map Prod.fst).Nodup := List.Nodup.sublist hsub hnd
      simpa using insertAll_fresh pairs [] (by simpa using hndp)
    calc (okFramePairs c usizeMax zfile frames).map (fun pairs => insertAll [] pairs)
        = (okFramePairs c usizeMax zfile frames).map id := List.map_congr_left hpt
      _ = okFramePairs c usizeMax zfile frames := List.map_id _
  have hm : (read_indexed_zstd_merge c usizeMax zfile frames).1.Perm
      ((okFramePairs c usizeMax zfile frames).flatten) := by
    rw [read_merge_fst, hlocals]
    have hperm := foldl_mergeStep_perm (okFramePairs c usizeMax zfile frames) []
      (by simpa using hnd)
    simpa using hperm
  have hd : (read_indexed_zstd_dashmap c usizeMax zfile frames).1 =
      (read_indexed_zstd_vector c usizeMax zfile frames).1 := by
    rw [read_dashmap_fst, read_vector_fst]
  refine ⟨hd, ?_, ?_, ?_⟩
  · intro k
    rw [hv]
    exact lookupKV_perm _ _ hm.symm hnd k
  · intro k
    rw [hv]
    exact ((hm.map Prod.fst).mem_iff).symm
  · rw [hv]
    exact hm.length_eq.symm

/-- C6 witness: a two-frame file whose records have distinct keys. -/
theorem strategy_equivalence_witness :
    (read_indexed_zstd_dashmap idCodec 100 [97, 9, 49, 10, 98, 9, 50, 10]
        [⟨0, 4, 0⟩, ⟨4, 4, 1⟩]).1 =
      (read_indexed_zstd_vector idCodec 100 [97, 9, 49, 10, 98, 9, 50, 10]
        [⟨0, 4, 0⟩, ⟨4, 4, 1⟩]).1 ∧
    (∀ k, lookupKV (read_indexed_zstd_vector idCodec 100 [97, 9, 49, 10, 98, 9, 50, 10]
        [⟨0, 4, 0⟩, ⟨4, 4, 1⟩]).1 k =
      lookupKV (read_indexed_zstd_merge idCodec 100 [97, 9, 49, 10, 98, 9, 50, 10]
        [⟨0, 4, 0⟩, ⟨4, 4, 1⟩]).1 k) ∧
    (∀ k, k ∈ ((read_indexed_zstd_vector idCodec 100 [97, 9, 49, 10, 98, 9, 50, 10]
        [⟨0, 4, 0⟩, ⟨4, 4, 1⟩]).1.map Prod.fst) ↔
      k ∈ ((read_indexed_zstd_merge idCodec 100 [97, 9, 49, 10, 98, 9, 50, 10]
        [⟨0, 4, 0⟩, ⟨4, 4, 1⟩]).1.map Prod.fst)) ∧
    (read_indexed_zstd_vector idCodec 100 [97, 9, 49, 10, 98, 9, 50, 10]
        [⟨0, 4, 0⟩, ⟨4, 4, 1⟩]).1.length =
      (read_indexed_zstd_merge idCodec 100 [97, 9, 49, 10, 98, 9, 50, 10]
        [⟨0, 4, 0⟩, ⟨4, 4, 1⟩]).1.length :=
  strategy_equivalence idCodec 100 [97, 9, 49, 10, 98, 9, 50, 10]
    [⟨0, 4, 0⟩, ⟨4, 4, 1⟩] (by decide)

/-- C4 counterexample.  A frame whose positional read fails (it asks for
5 bytes of an empty file) is dropped by every strategy, but the vector
and merge strategies log nothing at all (`filter_map(Result::ok)`), and
the dashmap strategy's log is the bare I/O error message, which does not
mention the frame's file offset (`0`): the claim's "logged with at least
the frame's file offset" fails. -/
theorem frame_error_logging_counterexample :
    (map_zstd_frame idCodec (2 ^ 64 - 1) [] ⟨0, 5, 0⟩).isOk = false ∧
    read_indexed_zstd_vector idCodec (2 ^ 64 - 1) [] [⟨0, 5, 0⟩] = ([], []) ∧
    read_indexed_zstd_merge idCodec (2 ^ 64 - 1) [] [⟨0, 5, 0⟩] = ([], []) ∧
    read_indexed_zstd_dashmap idCodec (2 ^ 64 - 1) [] [⟨0, 5, 0⟩] =
      ([], ["failed to fill whole buffer"]) ∧
    (∀ ch ∈ "failed to fill whole buffer".data, ch ∉ (Nat.repr 0).data) :=
  ⟨rfl, rfl, rfl, rfl, by decide⟩

/-- C4 (amended).  Per-frame error containment: a failing frame never
aborts the pass — every strategy's final mapping is that of the
successful frames alone — every successfully decoded frame's records
appear in every strategy's final mapping, and the dashmap strategy logs
each failing frame's error message (the vector and merge strategies drop
failing frames silently, and only the length-conversion message carries
the frame's offset). -/
theorem per_frame_error_containment (c : Codec) (u : Nat) (z : List Nat)
    (frames : List FrameMeta) :
    ((read_indexed_zstd_dashmap c u z frames).1 =
      (read_indexed_zstd_dashmap c u z
        (frames.filter (fun f => (map_zstd_frame c u z f).isOk))).1) ∧
    ((read_indexed_zstd_vector c u z frames).1 =
      (read_indexed_zstd_vector c u z
        (frames.filter (fun f => (map_zstd_frame c u z f).isOk))).1) ∧
    ((read_indexed_zstd_merge c u z frames).1 =
      (read_indexed_zstd_merge c u z
        (frames.filter (fun f => (map_zstd_frame c u z f).isOk))).1) ∧
    (∀ f ∈ frames, ∀ pd, map_zstd_frame c u z f = .ok pd → ∀ kv ∈ pd.1,
      kv.1 ∈ ((read_indexed_zstd_dashmap c u z frames).1.map Prod.fst) ∧
      kv.1 ∈ ((read_indexed_zstd_vector c u z frames).1.map Prod.fst) ∧
      kv.1 ∈ ((read_indexed_zstd_merge c u z frames).1.map Prod.fst)) ∧
    (∀ f ∈ frames, ∀ e, map_zstd_frame c u z f = .error e →
      e ∈ (read_indexed_zstd_dashmap c u z frames).2) := by
  refine ⟨?_, ?_, ?_, ?_, ?_⟩
  · rw [read_dashmap_fst, read_dashmap_fst, okFramePairs_filter]
  · rw [read_vector_fst, read_vector_fst, okFramePairs_filter]
  · rw [read_merge_fst, read_merge_fst, okFramePairs_filter]
  · intro f hf pd hok kv hkv
    have hpairs : pd.1 ∈ okFramePairs c u z frames := by
      refine List.mem_map.mpr ⟨pd, List.mem_filterMap.mpr ⟨f, hf, ?_⟩, rfl⟩
      rw [hok]
      rfl
    have hkey : kv.1 ∈ ((okFramePairs c u z frames).flatten).map Prod.fst :=
      List.mem_map.mpr ⟨kv, List.mem_flatten_of_mem hpairs hkv, rfl⟩
    refine ⟨?_, ?_, ?_⟩
    · rw [read_dashmap_fst]
      exact mem_keys_insertAll _ [] kv.1 (Or.inr hkey)
    · rw [read_vector_fst]
      exact mem_keys_insertAll _ [] kv.1 (Or.inr hkey)
    · rw [read_merge_fst]
      refine mem_keys_foldl_mergeStep _ [] kv.1 (Or.inr ?_)
      refine ⟨insertAll [] pd.1, List.mem_map.mpr ⟨pd.1, hpairs, rfl⟩, ?_⟩
      exact mem_keys_insertAll pd.1 [] kv.1 (Or.inr (List.mem_map.mpr ⟨kv, hkv, rfl⟩))
  · intro f hf e he
    exact foldl_dashStep_logs_error c u z frames ([], []) f e hf he

/-- C4 witness: one good frame and one frame whose read fails — the good
frame's record is in all three mappings and the bad frame's error is in
the dashmap log. -/
theorem per_frame_error_containment_witness :
    ("k1" ∈ ((read_indexed_zstd_dashmap idCodec 100 [107, 49, 9, 55, 10]
        [⟨0, 5, 0⟩, ⟨0, 99, 1⟩]).1.map Prod.fst) ∧
     "k1" ∈ ((read_indexed_zstd_vector idCodec 100 [107, 49, 9, 55, 10]
        [⟨0, 5, 0⟩, ⟨0, 99, 1⟩]).1.map Prod.fst) ∧
     "k1" ∈ ((read_indexed_zstd_merge idCodec 100 [107, 49, 9, 55, 10]
        [⟨0, 5, 0⟩, ⟨0, 99, 1⟩]).1.map Prod.fst)) ∧
    "failed to fill whole buffer" ∈
      (read_indexed_zstd_dashmap idCodec 100 [107, 49, 9, 55, 10]
        [⟨0, 5, 0⟩, ⟨0, 99, 1⟩]).2 :=
  ⟨(per_frame_error_containment idCodec 100 [107, 49, 9, 55, 10]
      [⟨0, 5, 0⟩, ⟨0, 99, 1⟩]).2.2.2.1 ⟨0, 5, 0⟩ (by decide) ([("k1", 7)], [])
      rfl ("k1", 7) (by decide),
   (per_frame_error_containment idCodec 100 [107, 49, 9, 55, 10]
      [⟨0, 5, 0⟩, ⟨0, 99, 1⟩]).2.2.2.2 ⟨0, 99, 1⟩ (by decide)
      "failed to fill whole buffer" rfl⟩

end Pdz
